import Mathlib

/-!
# mctui: `servercreator.go`

A shallow embedding of the version filter (`makeSelectorItems`), the flag
builder (`createFlags`), the license rewrite (`acceptEULA`) and the launch
sequence (`createServer`) of `servercreator.go`, with the properties proved
about them.

Go strings that come out of the JSON decoder are valid UTF-8, so identifiers
and URLs are Lean `String`s (sequences of runes). The content of a file on
disk is an arbitrary byte sequence, `List UInt8`.
-/

namespace Mctui

/-! ## The `regexp` fragment used by the filter -/

/-- One-rune matchers of the pattern syntax: a literal, a bracket range
`[lo-hi]`, and `.` (any rune except a newline, the default without flag `s`). -/
inductive CharClass where
  | lit (c : Char)
  | range (lo hi : Char)
  | anyNotNL

/-- Does the rune belong to the class. -/
def CharClass.test : CharClass → Char → Bool
  | .lit a, c => c == a
  | .range lo hi, c => decide (lo ≤ c) && decide (c ≤ hi)
  | .anyNotNL, c => c != '\n'

/-- Regular expressions. `empty` and `eps` and `alt` do not occur in the
pattern of the source; they are the residuals of the derivative matcher. -/
inductive Regex where
  | empty
  | eps
  | cls (k : CharClass)
  | alt (a b : Regex)
  | cat (a b : Regex)
  | star (a : Regex)

/-- Does the expression accept the empty string. -/
def Regex.nullable : Regex → Bool
  | .empty => false
  | .eps => true
  | .cls _ => false
  | .alt a b => a.nullable || b.nullable
  | .cat a b => a.nullable && b.nullable
  | .star _ => true

/-- Brzozowski derivative: the expression for what may follow the rune `c`. -/
def Regex.deriv : Regex → Char → Regex
  | .empty, _ => .empty
  | .eps, _ => .empty
  | .cls k, c => if k.test c then .eps else .empty
  | .alt a b, c => .alt (a.deriv c) (b.deriv c)
  | .cat a b, c =>
    if a.nullable then .alt (.cat (a.deriv c) b) (b.deriv c) else .cat (a.deriv c) b
  | .star a, c => .cat (a.deriv c) (.star a)

/-- The expression accepts exactly the whole of the input. -/
def Regex.matchesAll : Regex → List Char → Bool
  | r, [] => r.nullable
  | r, c :: cs => (r.deriv c).matchesAll cs

/-- The expression accepts some prefix of the input. -/
def Regex.matchesStart : Regex → List Char → Bool
  | r, [] => r.nullable
  | r, c :: cs => r.nullable || (r.deriv c).matchesStart cs

/-- Unanchored search over the runes: `(*Regexp).MatchString` reports whether
the input contains any match of the expression. -/
def Regex.search (r : Regex) : List Char → Bool
  | [] => r.matchesStart []
  | c :: cs => r.matchesStart (c :: cs) || r.search cs

/-- `(*Regexp).MatchString` on a Go string. -/
def Regex.MatchString (r : Regex) (s : String) : Bool :=
  r.search s.toList

/-- The compiled pattern `"0*[1-9][0-9]*.[1-9][0-9]"` of `makeSelectorItems`
(the dot is unescaped in the source, so it is the any-rune class). -/
def versionPattern : Regex :=
  .cat (.star (.cls (.lit '0')))
    (.cat (.cls (.range '1' '9'))
      (.cat (.star (.cls (.range '0' '9')))
        (.cat (.cls .anyNotNL)
          (.cat (.cls (.range '1' '9')) (.cls (.range '0' '9'))))))

/-! ## `strings` helpers -/

/-- `strings.Contains(s, substr)` on rune sequences: `substr` occurs in `s` as a
contiguous block. (For valid UTF-8 this agrees with the byte-wise search.) -/
def Contains (s substr : String) : Bool :=
  decide (substr.toList <:+: s.toList)

/-- `strings.Split(s, sep)` for a separator of length one: the pieces of `s`
around each occurrence of `sep`; an input without `sep` gives the single
piece `s`, so the result is never empty. -/
def Split {α : Type} [DecidableEq α] (sep : α) : List α → List (List α)
  | [] => [[]]
  | c :: cs =>
    if c = sep then [] :: Split sep cs
    else
      match Split sep cs with
      | [] => [[c]]
      | l :: ls => (c :: l) :: ls

/-- `strings.Join(elems, sep)` for a separator of length one. -/
def Join {α : Type} (sep : α) : List (List α) → List α
  | [] => []
  | [l] => l
  | l :: l2 :: ls => l ++ sep :: Join sep (l2 :: ls)

/-! ## The version manifest and the selector items -/

/-- An element of `Version.Versions` (its field `Type` is `Kind` here, `Type`
being reserved); the two time stamps are kept as their text in the manifest. -/
structure VersionEntry where
  ID : String
  Kind : String
  URL : String
  Time : String
  ReleaseTime : String
  deriving DecidableEq

/-- The `Latest` member of `Version`. -/
structure LatestVersions where
  Release : String
  Snapshot : String
  deriving DecidableEq

/-- The decoded manifest, `Version`. -/
structure Version where
  Latest : LatestVersions
  Versions : List VersionEntry
  deriving DecidableEq

/-- The list item: `ct` is the metadata URL, `title` the version id. -/
structure selectorItem where
  ct : String
  title : String
  deriving DecidableEq

/-- The condition of the first `if` in the loop body of `makeSelectorItems`:
the entry is skipped when it holds. -/
def skipFirst (id : String) : Bool :=
  Contains id "-" || Contains id "w" || !versionPattern.MatchString id

/-- The condition of the second `if` in the loop body. -/
def skipSecond (id : String) : Bool :=
  !versionPattern.MatchString id

/-- The filter of `makeSelectorItems`: an entry reaches the two `append`s when
neither `if` skips its id. -/
def retained (id : String) : Bool :=
  !skipFirst id && !skipSecond id

/-- The first loop of `makeSelectorItems`, started from the two slices built
so far: every entry that is not skipped appends its id to `versionList` and its
URL to `urlList`. -/
def collectLoop : List VersionEntry → List String × List String → List String × List String
  | [], acc => acc
  | version :: rest, (versionList, urlList) =>
    if skipFirst version.ID then collectLoop rest (versionList, urlList)
    else if skipSecond version.ID then collectLoop rest (versionList, urlList)
    else collectLoop rest (versionList ++ [version.ID], urlList ++ [version.URL])

/-- The second loop of `makeSelectorItems` from index `i` on: item `i` pairs
`urlList[i]` with the `i`-th version; `none` is the index-out-of-range panic. -/
def fillLoop (urlList : List String) : Nat → List String → Option (List selectorItem)
  | _, [] => some []
  | i, version :: rest =>
    match urlList[i]? with
    | none => none
    | some url =>
      match fillLoop urlList (i + 1) rest with
      | none => none
      | some items => some (⟨url, version⟩ :: items)

/-- `makeSelectorItems`, with the manifest that `getVersions()` returned as the
argument. -/
def makeSelectorItems (list : Version) : Option (List selectorItem) :=
  let (versionList, urlList) := collectLoop list.Versions ([], [])
  fillLoop urlList 0 versionList

/-- A manifest with the given entries (the `Latest` member is not read). -/
def manifestOf (vs : List VersionEntry) : Version :=
  ⟨⟨"", ""⟩, vs⟩

/-- An entry with the given id, kind and URL. -/
def entry (id kind url : String) : VersionEntry :=
  ⟨id, kind, url, "", ""⟩

/-! ## Flags, license file and launch sequence -/

/-- The content of a file: a sequence of bytes. -/
abbrev Bytes := List UInt8

/-- The conversion `[]byte(s)`: the UTF-8 encoding of the string. -/
def toBytes (s : String) : Bytes :=
  s.toList.flatMap String.utf8EncodeChar

/-- `createFlags`, with the value of `memory.TotalMemory()` as the argument. -/
def createFlags (totalMemory : Nat) : String :=
  if totalMemory ≥ 12000000000 then
    "-Xms10G -Xmx10G -XX:+UseG1GC -XX:+ParallelRefProcEnabled -XX:MaxGCPauseMillis=200 -XX:+UnlockExperimentalVMOptions -XX:+DisableExplicitGC -XX:+AlwaysPreTouch -XX:G1NewSizePercent=40 -XX:G1MaxNewSizePercent=50 -XX:G1HeapRegionSize=16M -XX:G1ReservePercent=15 -XX:G1HeapWastePercent=5 -XX:G1MixedGCCountTarget=4 -XX:InitiatingHeapOccupancyPercent=20 -XX:G1MixedGCLiveThresholdPercent=90 -XX:G1RSetUpdatingPauseTimePercent=5 -XX:SurvivorRatio=32 -XX:+PerfDisableSharedMem -XX:MaxTenuringThreshold=1 -Dusing.aikars.flags=https://mcflags.emc.gs -Daikars.new.flags=true -jar"
  else
    "-Xms10G -Xmx10G -XX:+UseG1GC -XX:+ParallelRefProcEnabled -XX:MaxGCPauseMillis=200 -XX:+UnlockExperimentalVMOptions -XX:+DisableExplicitGC -XX:+AlwaysPreTouch -XX:G1NewSizePercent=30 -XX:G1MaxNewSizePercent=40 -XX:G1HeapRegionSize=8M -XX:G1ReservePercent=20 -XX:G1HeapWastePercent=5 -XX:G1MixedGCCountTarget=4 -XX:InitiatingHeapOccupancyPercent=15 -XX:G1MixedGCLiveThresholdPercent=90 -XX:G1RSetUpdatingPauseTimePercent=5 -XX:SurvivorRatio=32 -XX:+PerfDisableSharedMem -XX:MaxTenuringThreshold=1 -Dusing.aikars.flags=https://mcflags.emc.gs -Daikars.new.flags=true -jar"

/-- The calls a run makes on the file system, the network and the process
launcher, in the order made. A call is recorded whether or not it succeeds:
the source prints the error of a failed call and goes on. Output to the
terminal is not recorded. -/
inductive Event where
  | mkdir (path : String)
  | httpGet (url : String)
  | create (path : String)
  | exec (name : String) (args : List String)
  | readFile (path : String)
  | writeFile (path : String) (data : Bytes)
  deriving DecidableEq

/-- What a function did: its calls, and whether it ended in a run-time panic. -/
structure Outcome where
  trace : List Event
  panicked : Bool
  deriving DecidableEq

/-- `acceptEULA`, with the file `server/eula.txt` as found on disk as the
argument (`none`: `ReadFile` fails and `input` stays empty). The assignment
`lines[2] = ...` panics with index out of range when there are fewer than three
lines, before `WriteFile` is reached. -/
def acceptEULA (file : Option Bytes) : Outcome :=
  let input : Bytes :=
    match file with
    | some data => data
    | none => []
  let lines := Split 10 input
  if 2 < lines.length then
    let output := Join 10 (lines.set 2 (toBytes "eula=true"))
    ⟨[.readFile "server/eula.txt", .writeFile "server/eula.txt" output], false⟩
  else
    ⟨[.readFile "server/eula.txt"], true⟩

/-- What `createServer` meets outside the program: the machine's memory, the
server URL that `getURLs(choice)` yields, whether `Run` returned an error for
the invocation with Aikar's flags and for the one without, and the license
file on disk when `acceptEULA` reads it. -/
structure Env where
  totalMemory : Nat
  serverURL : String
  tunedErr : Bool
  minimalErr : Bool
  eula : Option Bytes

/-- The text assigned to `output` at the end of `createServer`. -/
def launchScript (totalMemory : Nat) (aikarFlags : Bool) : String :=
  if !aikarFlags then "java -jar server.jar --nogui"
  else "java " ++ createFlags totalMemory ++ " server.jar " ++ "--nogui"

/-- The invocation with Aikar's flags. -/
def tunedCommand (totalMemory : Nat) : Event :=
  .exec "cmd" ["/C", "java", createFlags totalMemory, "server/server.jar", "--nogui"]

/-- The invocation without Aikar's flags. -/
def minimalCommand : Event :=
  .exec "cmd" ["/C", "cd", "server", "&&", "java", "-jar", "server.jar", "--nogui"]

/-- A run of `createServer`: its calls, the final value of the local
`aikarFlags`, and whether it ended in a panic. -/
structure ServerRun where
  trace : List Event
  aikarFlags : Bool
  panicked : Bool
  deriving DecidableEq

/-- `createServer`. The directory and download steps are taken to complete.
The error of the first `Run` selects the second invocation, whose own result
is dropped; `acceptEULA` and the write of `server/run.bat` follow in every
case, the latter unless `acceptEULA` panicked. -/
def createServer (choice : String) (env : Env) : ServerRun :=
  let download : List Event :=
    [.mkdir "server", .httpGet choice, .create "server/server.jar", .httpGet env.serverURL]
  let launch : List Event × Bool :=
    if env.tunedErr then ([tunedCommand env.totalMemory, minimalCommand], false)
    else ([tunedCommand env.totalMemory], true)
  let aikarFlags := launch.2
  let eula := acceptEULA env.eula
  if eula.panicked then
    ⟨download ++ launch.1 ++ eula.trace, aikarFlags, true⟩
  else
    let output := launchScript env.totalMemory aikarFlags
    ⟨download ++ launch.1 ++ eula.trace ++ [.writeFile "server/run.bat" (toBytes output)],
      aikarFlags, false⟩

/-- A license file as the server leaves it on its first start: two comment
lines, the acceptance line, and a final newline. -/
def freshEula : Bytes :=
  toBytes "#By changing the setting below to TRUE you are indicating your agreement to our EULA.\n#Mon Jan 01 00:00:00 UTC 2024\neula=false\n"

/-- An environment on an 8 GB machine with the given results of the two
invocations and the given license file. -/
def envWith (tunedErr minimalErr : Bool) (eula : Option Bytes) : Env :=
  ⟨8000000000, "https://example.org/server.jar", tunedErr, minimalErr, eula⟩

/-! ## Vocabulary of the specification -/

/-- A decimal digit. -/
def isDigit (c : Char) : Bool :=
  decide ('0' ≤ c) && decide (c ≤ '9')

/-- A decimal digit other than zero. -/
def isNonZeroDigit (c : Char) : Bool :=
  decide ('1' ≤ c) && decide (c ≤ '9')

/-- A stable-release identifier in the sense of the specification: at least
two components separated by dots, each a non-empty run of decimal digits, and
nothing else. -/
def isStableId (id : String) : Bool :=
  let comps := Split '.' id.toList
  decide (2 ≤ comps.length) && comps.all (fun comp => !comp.isEmpty && comp.all isDigit)

/-- The space-separated tokens of a command line. -/
def tokens (s : String) : List String :=
  (Split ' ' s.toList).map String.mk

/-- The invocations among the calls of a run. -/
def execsOf (trace : List Event) : List Event :=
  trace.filter (fun e => match e with | .exec _ _ => true | _ => false)

/-- The contents written to the given path in a run, in order. -/
def writesTo (path : String) : List Event → List Bytes
  | [] => []
  | .writeFile p data :: rest => if p = path then data :: writesTo path rest else writesTo path rest
  | _ :: rest => writesTo path rest

/-! ## The derivative matcher decides the language of the expression -/

theorem matchesAll_empty (x : List Char) : Regex.empty.matchesAll x = false := by
  induction x with
  | nil => rfl
  | cons c cs ih => simpa [Regex.matchesAll, Regex.deriv] using ih

theorem matchesAll_eps (x : List Char) : Regex.eps.matchesAll x = true ↔ x = [] := by
  cases x with
  | nil => simp [Regex.matchesAll, Regex.nullable]
  | cons c cs => simp [Regex.matchesAll, Regex.deriv, matchesAll_empty]

theorem matchesAll_cls (k : CharClass) (x : List Char) :
    (Regex.cls k).matchesAll x = true ↔ ∃ c, x = [c] ∧ k.test c = true := by
  cases x with
  | nil => simp [Regex.matchesAll, Regex.nullable]
  | cons c cs =>
    cases h : k.test c with
    | true =>
      simp only [Regex.matchesAll, Regex.deriv, h, if_true, matchesAll_eps]
      constructor
      · rintro rfl; exact ⟨c, rfl, h⟩
      · rintro ⟨d, hd, _⟩; simp at hd; exact hd.2
    | false =>
      simp only [Regex.matchesAll, Regex.deriv, h, Bool.false_eq_true, if_false, matchesAll_empty]
      constructor
      · intro h0; exact absurd h0 (by simp)
      · rintro ⟨d, hd, ht⟩
        simp at hd
        rw [← hd.1, h] at ht
        exact absurd ht (by simp)

theorem matchesAll_alt (a b : Regex) (x : List Char) :
    (Regex.alt a b).matchesAll x = (a.matchesAll x || b.matchesAll x) := by
  induction x generalizing a b with
  | nil => rfl
  | cons c cs ih => simp only [Regex.matchesAll, Regex.deriv]; exact ih _ _

theorem matchesAll_cat (a b : Regex) (x : List Char) :
    (Regex.cat a b).matchesAll x = true ↔
      ∃ t u, x = t ++ u ∧ a.matchesAll t = true ∧ b.matchesAll u = true := by
  induction x generalizing a b with
  | nil =>
    simp only [Regex.matchesAll, Regex.nullable, Bool.and_eq_true]
    constructor
    · intro h; exact ⟨[], [], rfl, h.1, h.2⟩
    · rintro ⟨t, u, h, ha, hb⟩
      obtain ⟨rfl, rfl⟩ := List.append_eq_nil.1 h.symm
      exact ⟨ha, hb⟩
  | cons c cs ih =>
    have step : (Regex.cat (a.deriv c) b).matchesAll cs = true ↔
        ∃ t u, c :: cs = (c :: t) ++ u ∧ a.matchesAll (c :: t) = true ∧ b.matchesAll u = true := by
      rw [ih]
      constructor
      · rintro ⟨t, u, h, ha, hb⟩; exact ⟨t, u, by simp [h], ha, hb⟩
      · rintro ⟨t, u, h, ha, hb⟩; exact ⟨t, u, by simpa using h, ha, hb⟩
    cases hn : a.nullable with
    | true =>
      simp only [Regex.matchesAll, Regex.deriv, hn, if_true, matchesAll_alt, Bool.or_eq_true, step]
      constructor
      · rintro (⟨t, u, h, ha, hb⟩ | hb)
        · exact ⟨c :: t, u, h, ha, hb⟩
        · exact ⟨[], c :: cs, rfl, hn, hb⟩
      · rintro ⟨t, u, h, ha, hb⟩
        cases t with
        | nil => right; simp only [List.nil_append] at h; rw [← h] at hb; exact hb
        | cons d t =>
          left
          have hd : c = d := by simp at h; exact h.1
          subst hd
          exact ⟨t, u, h, ha, hb⟩
    | false =>
      simp only [Regex.matchesAll, Regex.deriv, hn, Bool.false_eq_true, if_false, step]
      constructor
      · rintro ⟨t, u, h, ha, hb⟩; exact ⟨c :: t, u, h, ha, hb⟩
      · rintro ⟨t, u, h, ha, hb⟩
        cases t with
        | nil =>
          simp only [Regex.matchesAll, hn] at ha
          exact absurd ha (by simp)
        | cons d t =>
          have hd : c = d := by simp at h; exact h.1
          subst hd
          exact ⟨t, u, h, ha, hb⟩

theorem matchesAll_star_cls (k : CharClass) (x : List Char) :
    (Regex.star (Regex.cls k)).matchesAll x = true ↔ ∀ c ∈ x, k.test c = true := by
  induction x with
  | nil => simp [Regex.matchesAll, Regex.nullable]
  | cons c cs ih =>
    simp only [Regex.matchesAll, Regex.deriv, List.mem_cons, forall_eq_or_imp]
    cases h : k.test c with
    | true =>
      simp only [if_true, true_and]
      rw [matchesAll_cat, ← ih]
      constructor
      · rintro ⟨t, u, hx, ht, hu⟩
        rw [matchesAll_eps] at ht
        subst ht
        simpa [hx] using hu
      · intro hu
        exact ⟨[], cs, rfl, by simp [matchesAll_eps], hu⟩
    | false =>
      simp only [Bool.false_eq_true, if_false, false_and, iff_false]
      rw [matchesAll_cat]
      rintro ⟨t, u, _, ht, _⟩
      simp [matchesAll_empty] at ht

theorem matchesStart_iff (r : Regex) (x : List Char) :
    r.matchesStart x = true ↔ ∃ t u, x = t ++ u ∧ r.matchesAll t = true := by
  induction x generalizing r with
  | nil =>
    simp only [Regex.matchesStart]
    constructor
    · intro h; exact ⟨[], [], rfl, h⟩
    · rintro ⟨t, u, h, ht⟩
      obtain ⟨rfl, rfl⟩ := List.append_eq_nil.1 h.symm
      exact ht
  | cons c cs ih =>
    simp only [Regex.matchesStart, Bool.or_eq_true, ih]
    constructor
    · rintro (h | ⟨t, u, h, ht⟩)
      · exact ⟨[], c :: cs, rfl, h⟩
      · exact ⟨c :: t, u, by simp [h], ht⟩
    · rintro ⟨t, u, h, ht⟩
      cases t with
      | nil => left; exact ht
      | cons d t =>
        right
        have hd : c = d := by simp at h; exact h.1
        subst hd
        exact ⟨t, u, by simpa using h, ht⟩

theorem search_iff (r : Regex) (x : List Char) :
    r.search x = true ↔ ∃ p t u, x = p ++ t ++ u ∧ r.matchesAll t = true := by
  induction x with
  | nil =>
    simp only [Regex.search, matchesStart_iff]
    constructor
    · rintro ⟨t, u, h, ht⟩; exact ⟨[], t, u, by simpa using h, ht⟩
    · rintro ⟨p, t, u, h, ht⟩
      have h2 : p ++ t ++ u = [] := h.symm
      simp only [List.append_eq_nil] at h2
      obtain ⟨⟨rfl, rfl⟩, rfl⟩ := h2
      exact ⟨[], [], rfl, ht⟩
  | cons c cs ih =>
    simp only [Regex.search, Bool.or_eq_true, ih, matchesStart_iff]
    constructor
    · rintro (⟨t, u, h, ht⟩ | ⟨p, t, u, h, ht⟩)
      · exact ⟨[], t, u, by simpa using h, ht⟩
      · exact ⟨c :: p, t, u, by simp [h], ht⟩
    · rintro ⟨p, t, u, h, ht⟩
      cases p with
      | nil => left; exact ⟨t, u, by simpa using h, ht⟩
      | cons d p =>
        right
        have hd : cs = p ++ t ++ u := by simp at h; simpa using h.2
        exact ⟨p, t, u, hd, ht⟩

/-- What the pattern of the source accepts as a whole: zeros, a non-zero
digit, digits, one rune other than a newline, a non-zero digit, a digit. -/
theorem versionPattern_matchesAll (t : List Char) :
    versionPattern.matchesAll t = true ↔
      ∃ zs d1 ds c d2 d3, t = zs ++ d1 :: ds ++ [c, d2, d3] ∧ (∀ z ∈ zs, z = '0') ∧
        isNonZeroDigit d1 = true ∧ (∀ d ∈ ds, isDigit d = true) ∧ c ≠ '\n' ∧
        isNonZeroDigit d2 = true ∧ isDigit d3 = true := by
  unfold versionPattern
  simp only [matchesAll_cat, matchesAll_cls, matchesAll_star_cls]
  constructor
  · rintro ⟨zs, u1, rfl, hz, t2, u2, rfl, ⟨d1, rfl, h1⟩, ds, u3, rfl, hds, t4, u4, rfl,
      ⟨c, rfl, hc⟩, t5, u5, rfl, ⟨d2, rfl, h2⟩, d3, rfl, h3⟩
    refine ⟨zs, d1, ds, c, d2, d3, by simp, ?_, h1, hds, ?_, h2, h3⟩
    · intro z hzm
      simpa [CharClass.test] using hz z hzm
    · simpa [CharClass.test] using hc
  · rintro ⟨zs, d1, ds, c, d2, d3, rfl, hz, h1, hds, hc, h2, h3⟩
    refine ⟨zs, d1 :: ds ++ [c, d2, d3], by simp, ?_, [d1], ds ++ [c, d2, d3], by simp,
      ⟨d1, rfl, h1⟩, ds, [c, d2, d3], rfl, hds, [c], [d2, d3], rfl, ⟨c, rfl, ?_⟩, [d2], [d3], rfl,
      ⟨d2, rfl, h2⟩, d3, rfl, h3⟩
    · intro z hzm
      simpa [CharClass.test] using hz z hzm
    · simpa [CharClass.test] using hc

/-- What `MatchString` accepts for the pattern of the source: the input holds,
somewhere, a non-zero digit, digits, one rune other than a newline, a non-zero
digit and a digit. -/
theorem versionPattern_MatchString (s : String) :
    versionPattern.MatchString s = true ↔
      ∃ pre d1 ds c d2 d3 post, s.toList = pre ++ d1 :: ds ++ c :: d2 :: d3 :: post ∧
        isNonZeroDigit d1 = true ∧ (∀ d ∈ ds, isDigit d = true) ∧ c ≠ '\n' ∧
        isNonZeroDigit d2 = true ∧ isDigit d3 = true := by
  unfold Regex.MatchString
  rw [search_iff]
  constructor
  · rintro ⟨p, t, u, hs, ht⟩
    obtain ⟨zs, d1, ds, c, d2, d3, rfl, _, h1, hds, hc, h2, h3⟩ := (versionPattern_matchesAll t).1 ht
    exact ⟨p ++ zs, d1, ds, c, d2, d3, u, by rw [hs]; simp, h1, hds, hc, h2, h3⟩
  · rintro ⟨pre, d1, ds, c, d2, d3, post, hs, h1, hds, hc, h2, h3⟩
    refine ⟨pre, d1 :: ds ++ [c, d2, d3], post, by rw [hs]; simp, ?_⟩
    exact (versionPattern_matchesAll _).2
      ⟨[], d1, ds, c, d2, d3, by simp, by simp, h1, hds, hc, h2, h3⟩

/-- A one-rune substring is contained exactly when the rune occurs. -/
theorem Contains_singleton (s : String) (c : Char) :
    Contains s (String.mk [c]) = true ↔ c ∈ s.toList := by
  unfold Contains
  simp only [decide_eq_true_eq]
  constructor
  · rintro ⟨p, q, h⟩
    have hm : c ∈ p ++ String.toList (String.mk [c]) ++ q := by simp
    rw [h] at hm
    exact hm
  · intro h
    obtain ⟨p, q, hpq⟩ := List.append_of_mem h
    exact ⟨p, q, by rw [hpq]; simp⟩

/-- The filter in terms of runes: no hyphen, no `w`, and a match of the
pattern somewhere in the id. -/
theorem retained_iff (id : String) :
    retained id = true ↔
      '-' ∉ id.toList ∧ 'w' ∉ id.toList ∧ versionPattern.MatchString id = true := by
  have h1 := Contains_singleton id '-'
  have h2 := Contains_singleton id 'w'
  have e1 : String.mk ['-'] = "-" := rfl
  have e2 : String.mk ['w'] = "w" := rfl
  rw [e1] at h1
  rw [e2] at h2
  unfold retained skipFirst skipSecond
  cases hm : versionPattern.MatchString id <;>
    cases ha : Contains id "-" <;> cases hb : Contains id "w" <;>
    simp [ha, hb] at h1 h2 ⊢ <;> simp [h1, h2]

/-! ## The two loops of `makeSelectorItems` -/

theorem collectLoop_eq (vs : List VersionEntry) (versionList urlList : List String) :
    collectLoop vs (versionList, urlList) =
      (versionList ++ (vs.filter (fun v => retained v.ID)).map (fun v => v.ID),
        urlList ++ (vs.filter (fun v => retained v.ID)).map (fun v => v.URL)) := by
  induction vs generalizing versionList urlList with
  | nil => simp [collectLoop]
  | cons v rest ih =>
    unfold collectLoop
    cases h1 : skipFirst v.ID <;> cases h2 : skipSecond v.ID <;>
      simp [ih, retained, h1, h2]

theorem fillLoop_eq (l : List VersionEntry) (done : List String) :
    fillLoop (done ++ l.map (fun v => v.URL)) done.length (l.map (fun v => v.ID)) =
      some (l.map (fun v => (⟨v.URL, v.ID⟩ : selectorItem))) := by
  induction l generalizing done with
  | nil => simp [fillLoop]
  | cons v rest ih =>
    have hget : (done ++ (v :: rest).map (fun v => v.URL))[done.length]? = some v.URL := by
      rw [List.getElem?_append_right (Nat.le_refl _)]
      simp
    have hrest := ih (done ++ [v.URL])
    simp only [List.length_append, List.length_singleton, List.append_assoc,
      List.singleton_append] at hrest
    simp only [List.map_cons] at hget ⊢
    unfold fillLoop
    simp only [hget, hrest]

/-- The list `makeSelectorItems` returns: the retained entries in manifest
order, each as the pair of its own URL and id; the indexing never panics. -/
theorem makeSelectorItems_eq (list : Version) :
    makeSelectorItems list =
      some ((list.Versions.filter (fun v => retained v.ID)).map
        (fun v => (⟨v.URL, v.ID⟩ : selectorItem))) := by
  unfold makeSelectorItems
  rw [collectLoop_eq]
  simpa using fillLoop_eq (list.Versions.filter (fun v => retained v.ID)) []

/-! ## `Split` and `Join` -/

theorem Split_ne_nil {α : Type} [DecidableEq α] (sep : α) (s : List α) : Split sep s ≠ [] := by
  cases s with
  | nil => simp [Split]
  | cons c cs =>
    unfold Split
    by_cases hc : c = sep
    · simp [hc]
    · cases h : Split sep cs <;> simp [hc]

theorem not_mem_of_mem_Split {α : Type} [DecidableEq α] (sep : α) (s : List α) :
    ∀ l ∈ Split sep s, sep ∉ l := by
  induction s with
  | nil => intro l hl; simp [Split] at hl; simp [hl]
  | cons c cs ih =>
    intro l hl
    unfold Split at hl
    by_cases hc : c = sep
    · simp only [hc, if_true, List.mem_cons] at hl
      rcases hl with rfl | hl
      · simp
      · exact ih l hl
    · cases h : Split sep cs with
      | nil => exact absurd h (Split_ne_nil sep cs)
      | cons l1 ls =>
        rw [h] at ih
        simp only [hc, if_false, h, List.mem_cons] at hl
        rcases hl with rfl | hl
        · have h1 := ih l1 (by simp)
          simp only [List.mem_cons, not_or]
          exact ⟨fun e => hc e.symm, h1⟩
        · exact ih l (by simp [hl])

theorem mem_Split_of_mem {α : Type} [DecidableEq α] (sep : α) (s : List α) (c : α)
    (hc : c ∈ s) (hne : c ≠ sep) : ∃ l ∈ Split sep s, c ∈ l := by
  induction s with
  | nil => simp at hc
  | cons x xs ih =>
    unfold Split
    by_cases hx : x = sep
    · simp only [hx, if_true, List.mem_cons]
      have hc2 : c ∈ xs := by
        rcases List.mem_cons.1 hc with h | h
        · exact absurd (h.trans hx) hne
        · exact h
      obtain ⟨l, hl, hcl⟩ := ih hc2
      exact ⟨l, Or.inr hl, hcl⟩
    · cases h : Split sep xs with
      | nil => exact absurd h (Split_ne_nil sep xs)
      | cons l1 ls =>
        rw [h] at ih
        simp only [hx, if_false, List.mem_cons]
        rcases List.mem_cons.1 hc with h2 | h2
        · exact ⟨x :: l1, Or.inl rfl, by simp [h2]⟩
        · obtain ⟨l, hl, hcl⟩ := ih h2
          rcases List.mem_cons.1 hl with rfl | hl2
          · exact ⟨x :: l, Or.inl rfl, by simp [hcl]⟩
          · exact ⟨l, Or.inr hl2, hcl⟩

theorem Split_of_not_mem {α : Type} [DecidableEq α] (sep : α) (l : List α) (h : sep ∉ l) :
    Split sep l = [l] := by
  induction l with
  | nil => rfl
  | cons c cs ih =>
    simp only [List.mem_cons, not_or] at h
    unfold Split
    have hc : ¬ c = sep := fun e => h.1 e.symm
    simp [hc, ih h.2]

theorem Split_append_sep {α : Type} [DecidableEq α] (sep : α) (l t : List α) (h : sep ∉ l) :
    Split sep (l ++ sep :: t) = l :: Split sep t := by
  induction l with
  | nil => simp [Split]
  | cons c cs ih =>
    simp only [List.mem_cons, not_or] at h
    have hc : ¬ c = sep := fun e => h.1 e.symm
    simp only [List.cons_append]
    rw [Split]
    simp [hc, ih h.2]

theorem Split_Join {α : Type} [DecidableEq α] (sep : α) (ls : List (List α)) (hne : ls ≠ [])
    (h : ∀ l ∈ ls, sep ∉ l) : Split sep (Join sep ls) = ls := by
  induction ls with
  | nil => exact absurd rfl hne
  | cons l rest ih =>
    cases rest with
    | nil => simpa [Join] using Split_of_not_mem sep l (h l (by simp))
    | cons l2 rest2 =>
      simp only [Join]
      rw [Split_append_sep sep l _ (h l (by simp)), ih (by simp)]
      intro l3 hl3
      exact h l3 (by simp [List.mem_cons] at hl3 ⊢; tauto)

/-- A stable-release identifier consists of dots and decimal digits only. -/
theorem isStableId_chars (id : String) (h : isStableId id = true) :
    ∀ c ∈ id.toList, c = '.' ∨ isDigit c = true := by
  intro c hc
  by_cases hdot : c = '.'
  · exact Or.inl hdot
  · right
    obtain ⟨l, hl, hcl⟩ := mem_Split_of_mem '.' id.toList c hc hdot
    unfold isStableId at h
    simp only [Bool.and_eq_true, List.all_eq_true] at h
    exact (h.2 l hl).2 c hcl

/-- Membership in the returned list, entry by entry. -/
theorem mem_makeSelectorItems (list : Version) (items : List selectorItem)
    (h : makeSelectorItems list = some items) (it : selectorItem) :
    it ∈ items ↔ ∃ v ∈ list.Versions, retained v.ID = true ∧ it = ⟨v.URL, v.ID⟩ := by
  rw [makeSelectorItems_eq] at h
  injection h with h
  subst h
  simp only [List.mem_map, List.mem_filter]
  constructor
  · rintro ⟨v, ⟨hv, hr⟩, rfl⟩; exact ⟨v, hv, hr, rfl⟩
  · rintro ⟨v, hv, hr, rfl⟩; exact ⟨v, ⟨hv, hr⟩, rfl⟩

/-! ## The claims about the version filter -/

/-- C1 (as stated, refuted): not every returned title is a stable-release
identifier. The manifest with the ids `1234` and `1.20.1_unobfuscated` has both
in the output: the first has no dot at all, the second has letters after the
digits. -/
theorem makeSelectorItems_title_not_always_stable :
    ¬ ∀ (list : Version) (items : List selectorItem), makeSelectorItems list = some items →
      ∀ it ∈ items, isStableId it.title = true := by
  intro h
  have h1 := h (manifestOf [entry "1234" "release" "u1", entry "1.20.1_unobfuscated" "release" "u2"])
    [⟨"u1", "1234"⟩, ⟨"u2", "1.20.1_unobfuscated"⟩] (by decide) ⟨"u1", "1234"⟩ (by decide)
  revert h1
  decide

/-- C1 (amended): every returned title has no hyphen and no letter `w`, and
holds somewhere a match of the pattern: a non-zero digit, any number of digits,
one further rune that is not a newline, a non-zero digit and a digit. Other
runes may stand before and after the match. -/
theorem makeSelectorItems_title_has_version_core (list : Version) (items : List selectorItem)
    (h : makeSelectorItems list = some items) :
    ∀ it ∈ items, '-' ∉ it.title.toList ∧ 'w' ∉ it.title.toList ∧
      ∃ pre d1 ds c d2 d3 post, it.title.toList = pre ++ d1 :: ds ++ c :: d2 :: d3 :: post ∧
        isNonZeroDigit d1 = true ∧ (∀ d ∈ ds, isDigit d = true) ∧ c ≠ '\n' ∧
        isNonZeroDigit d2 = true ∧ isDigit d3 = true := by
  intro it hit
  obtain ⟨v, _, hr, rfl⟩ := (mem_makeSelectorItems list items h it).1 hit
  obtain ⟨ha, hb, hm⟩ := (retained_iff v.ID).1 hr
  exact ⟨ha, hb, (versionPattern_MatchString v.ID).1 hm⟩

/-- Witness of the amended C1 on a two-entry manifest: the returned title
`1.20.1`. -/
theorem makeSelectorItems_title_has_version_core_witness :
    makeSelectorItems (manifestOf [entry "1.20.1" "release" "u1", entry "23w13a" "snapshot" "u2"])
        = some [⟨"u1", "1.20.1"⟩] ∧
      ('-' ∉ "1.20.1".toList ∧ 'w' ∉ "1.20.1".toList ∧
        ∃ pre d1 ds c d2 d3 post, "1.20.1".toList = pre ++ d1 :: ds ++ c :: d2 :: d3 :: post ∧
          isNonZeroDigit d1 = true ∧ (∀ d ∈ ds, isDigit d = true) ∧ c ≠ '\n' ∧
          isNonZeroDigit d2 = true ∧ isDigit d3 = true) :=
  ⟨by decide, makeSelectorItems_title_has_version_core
    (manifestOf [entry "1.20.1" "release" "u1", entry "23w13a" "snapshot" "u2"])
    [⟨"u1", "1.20.1"⟩] (by decide) ⟨"u1", "1.20.1"⟩ (by decide)⟩

/-- C2 (as stated, refuted): the stable-release identifier `1.8` is in the
manifest and is not retained. -/
theorem makeSelectorItems_drops_stable_id :
    ¬ ∀ (list : Version) (items : List selectorItem) (v : VersionEntry),
      makeSelectorItems list = some items → v ∈ list.Versions → isStableId v.ID = true →
      (⟨v.URL, v.ID⟩ : selectorItem) ∈ items := by
  intro h
  have h1 := h (manifestOf [entry "1.8" "release" "u1"]) [] (entry "1.8" "release" "u1")
    (by decide) (by decide) (by decide)
  revert h1
  decide

/-- C2 (amended): the filter retains every entry whose id is a stable-release
identifier in which some dot is directly followed by a non-zero digit and one
more digit, and directly preceded by a run of digits that begins with a
non-zero one (as in `1.20.1`, `1.19.4`, `1.10`). -/
theorem makeSelectorItems_keeps_stable_id_with_two_digit_part (list : Version)
    (items : List selectorItem) (v : VersionEntry)
    (h : makeSelectorItems list = some items) (hv : v ∈ list.Versions)
    (hs : isStableId v.ID = true)
    (hcore : ∃ pre d1 ds d2 d3 post, v.ID.toList = pre ++ d1 :: ds ++ '.' :: d2 :: d3 :: post ∧
      isNonZeroDigit d1 = true ∧ (∀ d ∈ ds, isDigit d = true) ∧
      isNonZeroDigit d2 = true ∧ isDigit d3 = true) :
    (⟨v.URL, v.ID⟩ : selectorItem) ∈ items := by
  rw [mem_makeSelectorItems list items h]
  refine ⟨v, hv, ?_, rfl⟩
  rw [retained_iff]
  have hch := isStableId_chars v.ID hs
  refine ⟨?_, ?_, ?_⟩
  · intro hm
    rcases hch _ hm with h1 | h1
    · exact absurd h1 (by decide)
    · exact absurd h1 (by decide)
  · intro hm
    rcases hch _ hm with h1 | h1
    · exact absurd h1 (by decide)
    · exact absurd h1 (by decide)
  · obtain ⟨pre, d1, ds, d2, d3, post, he, h1, hds, h2, h3⟩ := hcore
    exact (versionPattern_MatchString v.ID).2
      ⟨pre, d1, ds, '.', d2, d3, post, he, h1, hds, by decide, h2, h3⟩

/-- Witness of the amended C2: `1.20.1` between a snapshot and `1.8`. -/
theorem makeSelectorItems_keeps_stable_id_with_two_digit_part_witness :
    (⟨"u2", "1.20.1"⟩ : selectorItem) ∈ [(⟨"u2", "1.20.1"⟩ : selectorItem)] :=
  makeSelectorItems_keeps_stable_id_with_two_digit_part
    (manifestOf [entry "23w13a" "snapshot" "u1", entry "1.20.1" "release" "u2",
      entry "1.8" "release" "u3"])
    [⟨"u2", "1.20.1"⟩] (entry "1.20.1" "release" "u2") (by decide) (by decide) (by decide)
    ⟨[], '1', [], '2', '0', ['.', '1'], by decide, by decide, by decide, by decide, by decide⟩

/-- C3: for every manifest the returned list is the entries that pass the
filter, in manifest order, one item per passing entry, each with that entry's
own URL as `ct` and own id as `title`; the indexing of `urlList` never panics.
For the ids `1.20.1`, `23w13a`, `1.20.1-pre1`, `1.19.4` (whatever their kinds
and URLs) the titles are `1.20.1`, `1.19.4` in that order. -/
theorem makeSelectorItems_is_filter_in_manifest_order :
    (∀ list : Version, makeSelectorItems list =
      some ((list.Versions.filter (fun v => retained v.ID)).map
        (fun v => (⟨v.URL, v.ID⟩ : selectorItem)))) ∧
    (∀ k1 k2 k3 k4 u1 u2 u3 u4 : String,
      makeSelectorItems (manifestOf [entry "1.20.1" k1 u1, entry "23w13a" k2 u2,
        entry "1.20.1-pre1" k3 u3, entry "1.19.4" k4 u4])
        = some [⟨u1, "1.20.1"⟩, ⟨u4, "1.19.4"⟩]) := by
  refine ⟨makeSelectorItems_eq, ?_⟩
  intro k1 k2 k3 k4 u1 u2 u3 u4
  have r1 : retained "1.20.1" = true := by decide
  have r2 : retained "23w13a" = false := by decide
  have r3 : retained "1.20.1-pre1" = false := by decide
  have r4 : retained "1.19.4" = true := by decide
  rw [makeSelectorItems_eq]
  simp [manifestOf, entry, List.filter, r1, r2, r3, r4]

/-- C4: for every manifest, in whatever order its entries come, no returned
title contains a hyphen or the letter `w`. -/
theorem makeSelectorItems_no_hyphen_no_w (list : Version) (items : List selectorItem)
    (h : makeSelectorItems list = some items) :
    ∀ it ∈ items, '-' ∉ it.title.toList ∧ 'w' ∉ it.title.toList ∧
      Contains it.title "-" = false ∧ Contains it.title "w" = false := by
  intro it hit
  obtain ⟨v, _, hr, rfl⟩ := (mem_makeSelectorItems list items h it).1 hit
  obtain ⟨ha, hb, _⟩ := (retained_iff v.ID).1 hr
  have c1 := Contains_singleton v.ID '-'
  have c2 := Contains_singleton v.ID 'w'
  have e1 : String.mk ['-'] = "-" := rfl
  have e2 : String.mk ['w'] = "w" := rfl
  rw [e1] at c1
  rw [e2] at c2
  refine ⟨ha, hb, ?_, ?_⟩
  · cases hc : Contains v.ID "-" with
    | false => rfl
    | true => exact absurd (c1.1 hc) ha
  · cases hc : Contains v.ID "w" with
    | false => rfl
    | true => exact absurd (c2.1 hc) hb

/-- Witness of C4 on the manifest of the end-to-end scenario, reversed: the
first returned title. -/
theorem makeSelectorItems_no_hyphen_no_w_witness :
    makeSelectorItems (manifestOf [entry "1.19.4" "release" "u4",
        entry "1.20.1-pre1" "snapshot" "u3", entry "23w13a" "snapshot" "u2",
        entry "1.20.1" "release" "u1"]) = some [⟨"u4", "1.19.4"⟩, ⟨"u1", "1.20.1"⟩] ∧
      ('-' ∉ "1.19.4".toList ∧ 'w' ∉ "1.19.4".toList ∧
        Contains "1.19.4" "-" = false ∧ Contains "1.19.4" "w" = false) :=
  ⟨by decide, makeSelectorItems_no_hyphen_no_w
    (manifestOf [entry "1.19.4" "release" "u4", entry "1.20.1-pre1" "snapshot" "u3",
      entry "23w13a" "snapshot" "u2", entry "1.20.1" "release" "u1"])
    [⟨"u4", "1.19.4"⟩, ⟨"u1", "1.20.1"⟩] (by decide) ⟨"u4", "1.19.4"⟩ (by decide)⟩

/-- C5 (as stated, refuted): an entry of kind `snapshot` with the id `1.20.1`
is retained. -/
theorem makeSelectorItems_keeps_non_release_kind :
    ¬ ∀ (list : Version) (items : List selectorItem) (v : VersionEntry),
      makeSelectorItems list = some items → v ∈ list.Versions →
      (⟨v.URL, v.ID⟩ : selectorItem) ∈ items → v.Kind = "release" := by
  intro h
  have h1 := h (manifestOf [entry "1.20.1" "snapshot" "u1"]) [⟨"u1", "1.20.1"⟩]
    (entry "1.20.1" "snapshot" "u1") (by decide) (by decide) (by decide)
  revert h1
  decide

/-- C5 (amended): the filter does not read the kind of an entry. Replacing the
kinds of the entries in any way leaves the returned list unchanged, so whether
an entry is retained depends on its id alone. -/
theorem makeSelectorItems_ignores_kind (list : Version) (f : VersionEntry → String) :
    makeSelectorItems ⟨list.Latest, list.Versions.map (fun v => { v with Kind := f v })⟩ =
      makeSelectorItems list := by
  rw [makeSelectorItems_eq, makeSelectorItems_eq]
  congr 1
  induction list.Versions with
  | nil => rfl
  | cons v rest ih =>
    simp only [List.map_cons, List.filter_cons]
    cases retained v.ID <;> simp [ih]

/-! ## The license file -/

/-- The lines `acceptEULA` joins again split back into themselves. -/
theorem Split_output_eq (content : Bytes) (h : 3 ≤ (Split 10 content).length) :
    Split 10 (Join 10 ((Split 10 content).set 2 (toBytes "eula=true"))) =
      (Split 10 content).set 2 (toBytes "eula=true") := by
  apply Split_Join
  · intro hnil
    rw [List.set_eq_nil_iff] at hnil
    rw [hnil] at h
    simp at h
  · intro l hl
    rcases List.mem_or_eq_of_mem_set hl with h1 | h1
    · exact not_mem_of_mem_Split 10 content l h1
    · rw [h1]; decide

/-- The outcome of `acceptEULA` on a file of at least three lines. -/
theorem acceptEULA_of_three_lines (content : Bytes) (h : 3 ≤ (Split 10 content).length) :
    acceptEULA (some content) =
      ⟨[.readFile "server/eula.txt", .writeFile "server/eula.txt"
        (Join 10 ((Split 10 content).set 2 (toBytes "eula=true")))], false⟩ := by
  have h2 : 2 < (Split 10 content).length := h
  simp [acceptEULA, h2]

/-- The outcome of `acceptEULA` when line index 2 does not exist. -/
theorem acceptEULA_of_short (file : Option Bytes)
    (h : file = none ∨ ∃ content, file = some content ∧ (Split 10 content).length < 3) :
    acceptEULA file = ⟨[.readFile "server/eula.txt"], true⟩ := by
  rcases h with rfl | ⟨content, rfl, hlen⟩
  · simp [acceptEULA, Split]
  · have h2 : ¬ 2 < (Split 10 content).length := by omega
    simp [acceptEULA, h2]

/-- C8: for every license-file content of at least three lines, `acceptEULA`
completes and writes one content back; that content has the same number of
lines, its line 2 is `eula=true`, every other line is the input line at the
same index, and `acceptEULA` applied to it writes it back unchanged. -/
theorem acceptEULA_rewrites_only_line_two (content : Bytes)
    (h : 3 ≤ (Split 10 content).length) :
    (acceptEULA (some content)).panicked = false ∧
    ∃ out, writesTo "server/eula.txt" (acceptEULA (some content)).trace = [out] ∧
      (Split 10 out).length = (Split 10 content).length ∧
      (Split 10 out)[2]? = some (toBytes "eula=true") ∧
      (∀ i, i ≠ 2 → (Split 10 out)[i]? = (Split 10 content)[i]?) ∧
      writesTo "server/eula.txt" (acceptEULA (some out)).trace = [out] := by
  have hsplit := Split_output_eq content h
  have hrun := acceptEULA_of_three_lines content h
  refine ⟨by rw [hrun], Join 10 ((Split 10 content).set 2 (toBytes "eula=true")), ?_, ?_, ?_, ?_, ?_⟩
  · rw [hrun]; simp [writesTo]
  · rw [hsplit]; simp
  · rw [hsplit, List.getElem?_set]
    have h2 : 2 < (Split 10 content).length := h
    simp [h2]
  · intro i hi
    rw [hsplit]
    exact List.getElem?_set_ne (Ne.symm hi)
  · have h3 : 3 ≤ (Split 10 (Join 10 ((Split 10 content).set 2 (toBytes "eula=true")))).length := by
      rw [hsplit]; simpa using h
    rw [acceptEULA_of_three_lines _ h3, hsplit, List.set_set]
    simp [writesTo]

/-- Witness of C8 on the license file of a first start. -/
theorem acceptEULA_rewrites_only_line_two_witness :
    3 ≤ (Split 10 freshEula).length ∧
    (acceptEULA (some freshEula)).panicked = false ∧
    ∃ out, writesTo "server/eula.txt"
        (acceptEULA (some freshEula)).trace = [out] ∧
      (Split 10 out).length = (Split 10 freshEula).length ∧
      (Split 10 out)[2]? = some (toBytes "eula=true") ∧
      (∀ i, i ≠ 2 →
        (Split 10 out)[i]? = (Split 10 freshEula)[i]?) ∧
      writesTo "server/eula.txt" (acceptEULA (some out)).trace = [out] :=
  ⟨by decide, acceptEULA_rewrites_only_line_two
    freshEula (by decide)⟩

/-- C9: `acceptEULA` fails (panics at `lines[2]`) exactly when the license file
is missing or has fewer than three lines, and then it writes nothing; for
every existing file of at least three lines it completes and writes the file
once. -/
theorem acceptEULA_fails_iff_missing_or_short (file : Option Bytes) :
    ((acceptEULA file).panicked = true ↔
      (file = none ∨ ∃ content, file = some content ∧ (Split 10 content).length < 3)) ∧
    ((acceptEULA file).panicked = true →
      ∀ path, writesTo path (acceptEULA file).trace = []) ∧
    ((∃ content, file = some content ∧ 3 ≤ (Split 10 content).length) →
      (acceptEULA file).panicked = false ∧
      ∃ out, writesTo "server/eula.txt" (acceptEULA file).trace = [out]) := by
  have hcases : (file = none ∨ ∃ content, file = some content ∧ (Split 10 content).length < 3) ∨
      ∃ content, file = some content ∧ 3 ≤ (Split 10 content).length := by
    cases file with
    | none => exact Or.inl (Or.inl rfl)
    | some content =>
      by_cases hlen : (Split 10 content).length < 3
      · exact Or.inl (Or.inr ⟨content, rfl, hlen⟩)
      · exact Or.inr ⟨content, rfl, by omega⟩
  rcases hcases with hshort | ⟨content, rfl, hlen⟩
  · have hrun := acceptEULA_of_short file hshort
    refine ⟨by rw [hrun]; simpa using hshort, ?_, ?_⟩
    · intro _ path
      rw [hrun]; simp [writesTo]
    · rintro ⟨content, rfl, hlen⟩
      rcases hshort with h0 | ⟨c2, h1, h2⟩
      · exact absurd h0 (by simp)
      · injection h1 with h1
        subst h1
        omega
  · have hrun := acceptEULA_of_three_lines content hlen
    refine ⟨?_, ?_, ?_⟩
    · rw [hrun]
      simp only [Bool.false_eq_true, false_iff, not_or, not_exists, not_and]
      refine ⟨by simp, ?_⟩
      intro c2 h1
      injection h1 with h1
      subst h1
      omega
    · intro hp
      rw [hrun] at hp
      exact absurd hp (by simp)
    · intro _
      rw [hrun]
      exact ⟨rfl, Join 10 ((Split 10 content).set 2 (toBytes "eula=true")), by simp [writesTo]⟩

/-! ## The launch script and the launch sequence -/

set_option maxRecDepth 100000

/-- The flag string is one of two constants, chosen by the memory threshold. -/
theorem createFlags_cases (totalMemory : Nat) :
    createFlags totalMemory = createFlags 12000000000 ∨ createFlags totalMemory = createFlags 0 := by
  by_cases h : totalMemory ≥ 12000000000
  · left; simp [createFlags, h]
  · right; simp [createFlags, h]

/-- No flag of `createFlags` other than `-jar` is a token of the minimal
command line. -/
theorem createFlags_tokens_not_minimal (totalMemory : Nat) :
    ∀ t ∈ tokens (createFlags totalMemory), t ≠ "-jar" →
      t ∉ tokens "java -jar server.jar --nogui" := by
  rcases createFlags_cases totalMemory with h | h <;> rw [h] <;> decide

/-- C10: for every total-memory value, the script text for `tuned = true` is
`java `, the whole flag string of `createFlags`, then ` server.jar --nogui`, so
every flag is one of its tokens; the text for `tuned = false` is
`java -jar server.jar --nogui`, whose only flag of `createFlags` is `-jar`;
and no other token of `createFlags` is a token of the `tuned = false` text. -/
theorem launchScript_tuned_and_minimal (totalMemory : Nat) :
    launchScript totalMemory true = "java " ++ createFlags totalMemory ++ " server.jar --nogui" ∧
    (∀ t ∈ tokens (createFlags totalMemory), t ∈ tokens (launchScript totalMemory true)) ∧
    launchScript totalMemory false = "java -jar server.jar --nogui" ∧
    tokens (launchScript totalMemory false) = ["java", "-jar", "server.jar", "--nogui"] ∧
    (∀ t ∈ tokens (createFlags totalMemory), t ∈ tokens (launchScript totalMemory false) →
      t = "-jar") ∧
    (∀ t ∈ tokens (createFlags totalMemory), t ≠ "-jar" →
      t ∉ tokens (launchScript totalMemory false)) := by
  have hmin : launchScript totalMemory false = "java -jar server.jar --nogui" := rfl
  have htun : launchScript totalMemory true =
      "java " ++ createFlags totalMemory ++ " server.jar " ++ "--nogui" := rfl
  refine ⟨?_, ?_, hmin, ?_, ?_, ?_⟩
  · rw [htun]
    rcases createFlags_cases totalMemory with h | h <;> rw [h] <;> decide
  · rw [htun]
    rcases createFlags_cases totalMemory with h | h <;> rw [h] <;> decide
  · rw [hmin]; decide
  · rw [hmin]
    intro t ht hmem
    by_contra hne
    exact createFlags_tokens_not_minimal totalMemory t ht hne hmem
  · rw [hmin]
    exact createFlags_tokens_not_minimal totalMemory

/-- The run after a failed first invocation, with a license file of at least
three lines on disk. -/
theorem createServer_fallback_run (choice : String) (env : Env) (content : Bytes)
    (ht : env.tunedErr = true) (he : env.eula = some content)
    (hl : 3 ≤ (Split 10 content).length) :
    createServer choice env =
      ⟨[.mkdir "server", .httpGet choice, .create "server/server.jar", .httpGet env.serverURL,
        tunedCommand env.totalMemory, minimalCommand,
        .readFile "server/eula.txt",
        .writeFile "server/eula.txt" (Join 10 ((Split 10 content).set 2 (toBytes "eula=true"))),
        .writeFile "server/run.bat" (toBytes "java -jar server.jar --nogui")], false, false⟩ := by
  simp [createServer, ht, he, acceptEULA_of_three_lines content hl, launchScript]

/-- The run after a failed first invocation, with the license file missing or
shorter than three lines. -/
theorem createServer_fallback_run_short (choice : String) (env : Env)
    (ht : env.tunedErr = true)
    (he : env.eula = none ∨ ∃ content, env.eula = some content ∧ (Split 10 content).length < 3) :
    createServer choice env =
      ⟨[.mkdir "server", .httpGet choice, .create "server/server.jar", .httpGet env.serverURL,
        tunedCommand env.totalMemory, minimalCommand,
        .readFile "server/eula.txt"], false, true⟩ := by
  simp [createServer, ht, acceptEULA_of_short env.eula he]

/-- Every license file is either missing or short, or has three lines. -/
theorem eula_cases (file : Option Bytes) :
    (file = none ∨ ∃ content, file = some content ∧ (Split 10 content).length < 3) ∨
      ∃ content, file = some content ∧ 3 ≤ (Split 10 content).length := by
  cases file with
  | none => exact Or.inl (Or.inl rfl)
  | some content =>
    by_cases hlen : (Split 10 content).length < 3
    · exact Or.inl (Or.inr ⟨content, rfl, hlen⟩)
    · exact Or.inr ⟨content, rfl, by omega⟩

/-- C6: when the invocation with Aikar's flags fails and the one without
succeeds, the invocations of the run are the tuned one followed by the minimal
one, once each; `aikarFlags` ends as `false`; whatever is written to
`server/run.bat` is `java -jar server.jar --nogui`, and it is written whenever
the run reaches that step, that is, unless `acceptEULA` panicked; and no flag
of `createFlags` other than `-jar` is a token of that text. -/
theorem createServer_falls_back_to_minimal (choice : String) (env : Env)
    (ht : env.tunedErr = true) (_hm : env.minimalErr = false) :
    execsOf (createServer choice env).trace = [tunedCommand env.totalMemory, minimalCommand] ∧
    (createServer choice env).aikarFlags = false ∧
    (∀ data ∈ writesTo "server/run.bat" (createServer choice env).trace,
      data = toBytes "java -jar server.jar --nogui") ∧
    ((createServer choice env).panicked = false →
      writesTo "server/run.bat" (createServer choice env).trace =
        [toBytes "java -jar server.jar --nogui"]) ∧
    launchScript env.totalMemory (createServer choice env).aikarFlags =
      "java -jar server.jar --nogui" ∧
    (∀ t ∈ tokens (createFlags env.totalMemory), t ≠ "-jar" →
      t ∉ tokens "java -jar server.jar --nogui") := by
  rcases eula_cases env.eula with hshort | ⟨content, he, hl⟩
  · rw [createServer_fallback_run_short choice env ht hshort]
    refine ⟨?_, rfl, ?_, ?_, rfl, createFlags_tokens_not_minimal env.totalMemory⟩
    · simp [execsOf, tunedCommand, minimalCommand]
    · simp [writesTo, tunedCommand, minimalCommand]
    · intro h; exact absurd h (by simp)
  · rw [createServer_fallback_run choice env content ht he hl]
    refine ⟨?_, rfl, ?_, ?_, rfl, createFlags_tokens_not_minimal env.totalMemory⟩
    · simp [execsOf, tunedCommand, minimalCommand]
    · simp [writesTo, tunedCommand, minimalCommand]
    · intro _; simp [writesTo, tunedCommand, minimalCommand]

/-- Witness of C6: the tuned invocation fails, the minimal one succeeds, and the
server has left its license file. -/
theorem createServer_falls_back_to_minimal_witness :
    execsOf (createServer "https://example.org/1.20.1.json"
        (envWith true false (some freshEula))).trace =
      [tunedCommand 8000000000, minimalCommand] ∧
    (createServer "https://example.org/1.20.1.json"
      (envWith true false (some freshEula))).panicked = false ∧
    writesTo "server/run.bat" (createServer "https://example.org/1.20.1.json"
        (envWith true false (some freshEula))).trace =
      [toBytes "java -jar server.jar --nogui"] :=
  have h := createServer_falls_back_to_minimal "https://example.org/1.20.1.json"
    (envWith true false (some freshEula)) rfl rfl
  ⟨h.1, by decide, h.2.2.2.1 (by decide)⟩

/-- C7 (as stated, refuted): with both invocations failing and a license file
left on disk by an earlier run, the license file is rewritten and the launch
script is written. -/
theorem createServer_goes_on_after_both_fail :
    ¬ ∀ (choice : String) (env : Env), env.tunedErr = true → env.minimalErr = true →
      writesTo "server/eula.txt" (createServer choice env).trace = [] ∧
      writesTo "server/run.bat" (createServer choice env).trace = [] := by
  intro h
  have h1 := h "https://example.org/1.20.1.json" (envWith true true (some freshEula)) rfl rfl
  revert h1
  decide

/-- C7 (amended): `createServer` does not examine the result of the minimal
invocation, so a run in which both invocations fail is the run in which the
minimal one succeeds: `aikarFlags` ends as `false` and `acceptEULA` is
performed; with a license file of at least three lines on disk the file is
rewritten and the minimal launch script is written; with the license file
missing or shorter the run ends in the panic of `acceptEULA` and writes
nothing. -/
theorem createServer_ignores_minimal_result (choice : String) (env : Env)
    (ht : env.tunedErr = true) (_hm : env.minimalErr = true) :
    createServer choice env = createServer choice { env with minimalErr := false } ∧
    (createServer choice env).aikarFlags = false ∧
    Event.readFile "server/eula.txt" ∈ (createServer choice env).trace ∧
    ((∃ content, env.eula = some content ∧ 3 ≤ (Split 10 content).length) →
      (createServer choice env).panicked = false ∧
      (∃ out, writesTo "server/eula.txt" (createServer choice env).trace = [out]) ∧
      writesTo "server/run.bat" (createServer choice env).trace =
        [toBytes "java -jar server.jar --nogui"]) ∧
    ((env.eula = none ∨ ∃ content, env.eula = some content ∧ (Split 10 content).length < 3) →
      (createServer choice env).panicked = true ∧
      ∀ path, writesTo path (createServer choice env).trace = []) := by
  refine ⟨rfl, ?_, ?_, ?_, ?_⟩
  · rcases eula_cases env.eula with hshort | ⟨content, he, hl⟩
    · rw [createServer_fallback_run_short choice env ht hshort]
    · rw [createServer_fallback_run choice env content ht he hl]
  · rcases eula_cases env.eula with hshort | ⟨content, he, hl⟩
    · rw [createServer_fallback_run_short choice env ht hshort]; simp
    · rw [createServer_fallback_run choice env content ht he hl]; simp
  · rintro ⟨content, he, hl⟩
    rw [createServer_fallback_run choice env content ht he hl]
    refine ⟨rfl, ⟨Join 10 ((Split 10 content).set 2 (toBytes "eula=true")), ?_⟩, ?_⟩
    · simp [writesTo, tunedCommand, minimalCommand]
    · simp [writesTo, tunedCommand, minimalCommand]
  · intro hshort
    rw [createServer_fallback_run_short choice env ht hshort]
    refine ⟨rfl, ?_⟩
    intro path
    simp [writesTo, tunedCommand, minimalCommand]

/-- Witness of the amended C7: both invocations fail and a license file is on
disk. -/
theorem createServer_ignores_minimal_result_witness :
    createServer "https://example.org/1.20.1.json" (envWith true true (some freshEula)) =
      createServer "https://example.org/1.20.1.json" (envWith true false (some freshEula)) ∧
    writesTo "server/run.bat" (createServer "https://example.org/1.20.1.json"
        (envWith true true (some freshEula))).trace =
      [toBytes "java -jar server.jar --nogui"] :=
  have h := createServer_ignores_minimal_result "https://example.org/1.20.1.json"
    (envWith true true (some freshEula)) rfl rfl
  ⟨h.1, (h.2.2.2.1 ⟨freshEula, rfl, by decide⟩).2.2⟩

end Mctui
